import Mathlib

/-!
Verification of the OpenFst core against its specification.

This file gives a shallow embedding of the parts of the library relevant
to the claims under scrutiny:

* `Arc`, compactors and the `DefaultCompactStore` with its two
  constructors (from an FST and from an iterator of compacted elements),
  from `compact-fst.h`;
* the `CompactFstImpl` accessors `Final`, `NumArcs`, `NumStates` and the
  cache-bypassing `ArcIterator` specialisation, from the same header;
* the expectation semiring from `expectation-weight.h`;
* the stream-alignment helpers `AlignInput` / `AlignOutput` from `util.cc`;
* the `MappedFile` constructors from `mapped-file.cc`;
* `FarExtract` from `extensions/far/extract.h` together with
  `SplitString` from `util.cc`.

Machine integers (Label, StateId) are embedded as `Int`; array indices as
`Nat`.  Weights are embedded generically; where a concrete semiring is
needed the tropical semiring is modelled with rationals in place of
floats.
-/

namespace OpenFst

/-- `kNoLabel = -1` (fst.h). -/
def kNoLabel : Int := -1

/-- `kNoStateId = -1` (fst.h). -/
def kNoStateId : Int := -1

/-- An FST transition: input label, output label, weight, destination
state (fst.h `ArcTpl`). -/
structure Arc (W : Type) where
  ilabel : Int
  olabel : Int
  weight : W
  nextstate : Int
deriving DecidableEq, Repr

/-- A compactor strategy (compact-fst.h): `Size()` (`-1` for variable
out-degree, the mandatory out-degree otherwise), `Compact(s, arc)` and
`Expand(s, e)`.  The `uint32 f` flag argument of `Expand` is dropped: all
five standard compactors ignore it and return fully valid arcs. -/
structure Compactor (W E : Type) where
  sz : Int
  compact : Nat → Arc W → E
  expand : Nat → E → Arc W

/-- `StringCompactor` (compact-fst.h): `Element = Label`,
`Compact(s, arc) = arc.ilabel`,
`Expand(s, p) = Arc(p, p, One, p != kNoLabel ? s + 1 : kNoStateId)`,
`Size() = 1`.  `one` stands for `Weight::One()`. -/
def stringCompactor (W : Type) (one : W) : Compactor W Int where
  sz := 1
  compact := fun _ arc => arc.ilabel
  expand := fun s p =>
    Arc.mk p p one (if p ≠ kNoLabel then (s : Int) + 1 else kNoStateId)

/-- The shareable data of a `CompactFst` (compact-fst.h
`DefaultCompactStore`).  For fixed out-degree compactors `states` is
empty (the C++ leaves `states_` unallocated); for variable out-degree
compactors it has `nstates + 1` entries, the last being `ncompacts`. -/
structure DefaultCompactStore (E : Type) where
  states : List Nat
  compacts : List E
  nstates : Nat
  ncompacts : Nat
  narcs : Nat
  start : Int
  error : Bool
deriving Repr

/-- `DefaultCompactStore::States(i)` (array read). -/
def DefaultCompactStore.statesAt (d : DefaultCompactStore E) (i : Nat) : Nat :=
  d.states.getD i 0

/-- `DefaultCompactStore::Compacts(i)` (array read). -/
def DefaultCompactStore.compactsAt [Inhabited E] (d : DefaultCompactStore E)
    (i : Nat) : E :=
  d.compacts.getD i default

/-- An input FST for store construction: the start state and, per state
`s = 0, 1, ...`, the final weight and the ordered list of out-arcs. -/
structure SimpleFst (W : Type) where
  start : Int
  states : List (W × List (Arc W))

/-- The compacted transitions written for one state by the
`DefaultCompactStore(const Fst&, compactor)` loop body: the superfinal
transition `Compact(s, Arc(kNoLabel, kNoLabel, Final(s), kNoStateId))`
first when `Final(s) != Zero()`, then the compacted out-arcs in order. -/
def stateBlock [DecidableEq W] (c : Compactor W E) (zero : W) (s : Nat)
    (st : W × List (Arc W)) : List E :=
  (if st.1 ≠ zero then [c.compact s (Arc.mk kNoLabel kNoLabel st.1 kNoStateId)]
   else [])
    ++ st.2.map (c.compact s)

/-- The per-state fill loop of `DefaultCompactStore(const Fst&,
compactor)` (compact-fst.h).  Arguments: current state id `s`, current
write position `pos`, remaining states.  Returns the `states_` positions
and the written elements, or `none` when the per-state check
`(pos - fpos) != compactor.Size()` fires for a fixed out-degree
compactor (the C++ sets `error_` and returns with the arrays partially
written). -/
def fillFstLoop [DecidableEq W] (c : Compactor W E) (zero : W) (sz : Int) :
    Nat → Nat → List (W × List (Arc W)) → Option (List Nat × List E)
  | _, _, [] => some ([], [])
  | s, pos, st :: rest =>
    let b := stateBlock c zero s st
    if sz ≠ -1 ∧ (b.length : Int) ≠ sz then none
    else
      match fillFstLoop c zero sz (s + 1) (pos + b.length) rest with
      | none => none
      | some (sts, es) => some (pos :: sts, b ++ es)

/-- `DefaultCompactStore(const Fst<Arc> &fst, const Compactor &compactor)`
(compact-fst.h).  Counts states, arcs and final states; for fixed
out-degree compactors checks `narcs + nfinals == nstates * Size()`
up front; then fills the arrays state by state, the superfinal
transition first for each final state.  On any failed check the store
carries `error = true` (the C++ array contents are then only partially
written; they are not modelled). -/
def DefaultCompactStore.fromFst [DecidableEq W] (zero : W)
    (c : Compactor W E) (f : SimpleFst W) : DefaultCompactStore E :=
  let nstates := f.states.length
  let narcs := (f.states.map fun st => st.2.length).sum
  let nfinals := (f.states.filter fun st => decide (st.1 ≠ zero)).length
  if c.sz ≠ -1 ∧ narcs + nfinals ≠ nstates * c.sz.toNat then
    { states := [], compacts := [], nstates := nstates,
      ncompacts := nstates * c.sz.toNat, narcs := narcs, start := f.start,
      error := true }
  else
    let ncompacts := if c.sz = -1 then narcs + nfinals
                     else nstates * c.sz.toNat
    match fillFstLoop c zero c.sz 0 0 f.states with
    | none =>
      { states := [], compacts := [], nstates := nstates,
        ncompacts := ncompacts, narcs := narcs, start := f.start,
        error := true }
    | some (sts, es) =>
      if es.length ≠ ncompacts then
        { states := if c.sz = -1 then sts ++ [ncompacts] else [],
          compacts := es, nstates := nstates, ncompacts := ncompacts,
          narcs := narcs, start := f.start, error := true }
      else
        { states := if c.sz = -1 then sts ++ [ncompacts] else [],
          compacts := es, nstates := nstates, ncompacts := ncompacts,
          narcs := narcs, start := f.start, error := false }

/-- The `narcs_` count of the iterator constructor's fixed out-degree
fill loop: the number of input elements whose expansion at their
position has `ilabel != kNoLabel`. -/
def countIterArcs (c : Compactor W E) : Nat → List E → Nat
  | _, [] => 0
  | i, e :: rest =>
    (if (c.expand i e).ilabel ≠ kNoLabel then 1 else 0) + countIterArcs c (i + 1) rest

/-- First pass of the iterator constructor's variable out-degree branch:
counts `(narcs, nstates, ncompacts)`, expanding each element at its
input position. -/
def iterVarCounts [DecidableEq W] (c : Compactor W E) (zero : W) :
    Nat → List E → Nat × Nat × Nat
  | _, [] => (0, 0, 0)
  | i, e :: rest =>
    let r := iterVarCounts c zero (i + 1) rest
    let arc := c.expand i e
    if arc.ilabel ≠ kNoLabel then (r.1 + 1, r.2.1, r.2.2 + 1)
    else (r.1, r.2.1 + 1, if arc.weight ≠ zero then r.2.2 + 1 else r.2.2)

/-- Second pass of the iterator constructor's variable out-degree branch:
produces the `states_` positions and the kept elements.  As in the C++,
each element is expanded at the current write position `i` (not at its
input position), and zero-weight final elements are dropped. -/
def iterVarFill [DecidableEq W] (c : Compactor W E) (zero : W) :
    Nat → List E → List Nat × List E
  | _, [] => ([], [])
  | i, e :: rest =>
    let arc := c.expand i e
    if arc.ilabel ≠ kNoLabel then
      let r := iterVarFill c zero (i + 1) rest
      (r.1, e :: r.2)
    else if arc.weight ≠ zero then
      let r := iterVarFill c zero (i + 1) rest
      (i :: r.1, e :: r.2)
    else
      let r := iterVarFill c zero i rest
      (i :: r.1, r.2)

/-- `DefaultCompactStore(const Iterator &begin, const Iterator &end,
const Compactor &compactor)` (compact-fst.h).  For fixed out-degree
compactors of size 1 an empty input denotes the empty string
(`ncompacts` becomes 1) and an input whose last element expands to
`ilabel != kNoLabel` is extended by an implicit superfinal element
`Compact(n, Arc(kNoLabel, kNoLabel, One, kNoStateId))`.  `zero` and
`one` stand for `Weight::Zero()` and `Weight::One()`. -/
def DefaultCompactStore.fromIterator [DecidableEq W] [Inhabited E]
    (zero one : W) (c : Compactor W E) (input : List E) :
    DefaultCompactStore E :=
  if c.sz ≠ -1 then
    let n := input.length
    let ncompacts :=
      if c.sz = 1 then
        if n = 0 then 1
        else if (c.expand (n - 1) (input.getD (n - 1) default)).ilabel ≠ kNoLabel
             then n + 1 else n
      else n
    if ncompacts % c.sz.toNat ≠ 0 then
      { states := [], compacts := [], nstates := 0, ncompacts := ncompacts,
        narcs := 0, start := kNoStateId, error := true }
    else if ncompacts = 0 then
      { states := [], compacts := [], nstates := 0, ncompacts := 0,
        narcs := 0, start := kNoStateId, error := false }
    else
      { states := [],
        compacts := input ++
          (if n < ncompacts
           then [c.compact n (Arc.mk kNoLabel kNoLabel one kNoStateId)]
           else []),
        nstates := ncompacts / c.sz.toNat, ncompacts := ncompacts,
        narcs := countIterArcs c 0 input, start := 0, error := false }
  else
    if input.length = 0 then
      { states := [], compacts := [], nstates := 0, ncompacts := 0,
        narcs := 0, start := kNoStateId, error := false }
    else
      let cnt := iterVarCounts c zero 0 input
      let fill := iterVarFill c zero 0 input
      { states := fill.1 ++ [cnt.2.2], compacts := fill.2,
        nstates := cnt.2.1, ncompacts := cnt.2.2, narcs := cnt.1,
        start := 0,
        error := fill.1.length ≠ cnt.2.1 ∨ fill.2.length ≠ cnt.2.2 }

/-- The first compacted position of state `s`:
`compactor->Size() == -1 ? data->States(s) : s * compactor->Size()`
(shared by `Final`, `NumArcs`, `CountEpsilons`, `Expand` and the
`ArcIterator` constructor in compact-fst.h). -/
def compactStateOffset (c : Compactor W E) (d : DefaultCompactStore E)
    (s : Nat) : Nat :=
  if c.sz = -1 then d.statesAt s else s * c.sz.toNat

/-- The number of compacted transitions of state `s`:
`States(s + 1) - States(s)` for variable out-degree, `Size()` otherwise
(compact-fst.h). -/
def compactStateNum (c : Compactor W E) (d : DefaultCompactStore E)
    (s : Nat) : Nat :=
  if c.sz = -1 then d.statesAt (s + 1) - d.statesAt s else c.sz.toNat

/-- `CompactFstImpl::Final(s)` on a cold cache (compact-fst.h): expands
the first compacted transition of `s` (when there is one) and returns
its weight when its `ilabel` is `kNoLabel`, else `Weight::Zero()`. -/
def compactFinal [DecidableEq W] [Inhabited E] (zero : W)
    (c : Compactor W E) (d : DefaultCompactStore E) (s : Nat) : W :=
  let arc :=
    if c.sz ≠ -1 ∨ d.statesAt s ≠ d.statesAt (s + 1) then
      c.expand s (d.compactsAt (compactStateOffset c d s))
    else Arc.mk kNoLabel kNoLabel zero kNoStateId
  if arc.ilabel = kNoLabel then arc.weight else zero

/-- `CompactFstImpl::NumArcs(s)` on a cold cache (compact-fst.h): the
number of compacted transitions of `s`, minus one when the first one
expands with `ilabel == kNoStateId` (the superfinal transition). -/
def compactNumArcs [Inhabited E] (c : Compactor W E)
    (d : DefaultCompactStore E) (s : Nat) : Nat :=
  let i := compactStateOffset c d s
  let numArcs := compactStateNum c d s
  if 0 < numArcs then
    if (c.expand s (d.compactsAt i)).ilabel = kNoStateId then numArcs - 1
    else numArcs
  else numArcs

/-- The arc iterator state for the `ArcIterator` specialisation for
`CompactFst` over a `DefaultCompactStore` (compact-fst.h).  `offset`
models the `compacts_` pointer (possibly advanced past a leading
superfinal element). -/
structure CompactArcIterator where
  state : Nat
  offset : Nat
  pos : Nat
  numArcs : Nat
deriving Repr, DecidableEq

/-- The `ArcIterator` constructor (compact-fst.h): computes the range of
state `s`, expands the first element when the range is non-empty and, if
its `ilabel` equals `kNoStateId`, advances past it and decrements the
arc count. -/
def CompactArcIterator.init [Inhabited E] (c : Compactor W E)
    (d : DefaultCompactStore E) (s : Nat) : CompactArcIterator :=
  let offset := compactStateOffset c d s
  let num := compactStateNum c d s
  if 0 < num then
    if (c.expand s (d.compactsAt offset)).ilabel = kNoStateId then
      { state := s, offset := offset + 1, pos := 0, numArcs := num - 1 }
    else { state := s, offset := offset, pos := 0, numArcs := num }
  else { state := s, offset := offset, pos := 0, numArcs := num }

/-- `ArcIterator::Done()`: `pos_ >= num_arcs_`. -/
def CompactArcIterator.isDone (it : CompactArcIterator) : Bool :=
  it.numArcs ≤ it.pos

/-- `ArcIterator::Value()`: `compactor_->Expand(state_, compacts_[pos_])`. -/
def CompactArcIterator.value [Inhabited E] (c : Compactor W E)
    (d : DefaultCompactStore E) (it : CompactArcIterator) : Arc W :=
  c.expand it.state (d.compactsAt (it.offset + it.pos))

/-- `ArcIterator::Next()`: `++pos_`. -/
def CompactArcIterator.next (it : CompactArcIterator) : CompactArcIterator :=
  { it with pos := it.pos + 1 }

/-- Runs the arc iterator protocol (`Done` / `Value` / `Next`),
collecting the yielded arcs; `fuel` bounds the number of steps. -/
def compactArcRun [Inhabited E] (c : Compactor W E)
    (d : DefaultCompactStore E) : Nat → CompactArcIterator → List (Arc W)
  | 0, _ => []
  | fuel + 1, it =>
    if it.isDone then []
    else it.value c d :: compactArcRun c d fuel it.next

/-- All arcs yielded by a freshly constructed iterator (fuel `numArcs`
suffices: `Done` holds once `pos` reaches `numArcs`). -/
def CompactArcIterator.toList [Inhabited E] (c : Compactor W E)
    (d : DefaultCompactStore E) (it : CompactArcIterator) : List (Arc W) :=
  compactArcRun c d it.numArcs it

/-- The compacted elements of state `s`'s range, as laid out in the
store. -/
def compactStateSeg (c : Compactor W E) (d : DefaultCompactStore E)
    (s : Nat) : List E :=
  (d.compacts.drop (compactStateOffset c d s)).take (compactStateNum c d s)

/-- Whether a range of compacted elements starts with a superfinal
transition, using the iterator constructor's test
`arc.ilabel == kNoStateId` on the expansion of the first element. -/
def segHasSuperfinal (c : Compactor W E) (s : Nat) : List E → Bool
  | [] => false
  | e :: _ => decide ((c.expand s e).ilabel = kNoStateId)

/-- Modelled from the spec: the tropical semiring weight
(`float-weight.h` is not among the sources).  `Zero` is `+∞`, `One` is
`0`; rationals stand in for floats. -/
inductive TropicalWeight where
  | infty : TropicalWeight
  | fin : ℚ → TropicalWeight
deriving DecidableEq, Repr

/-- `TropicalWeight::Zero() = +∞`. -/
def TropicalWeight.zero : TropicalWeight := .infty

/-- `TropicalWeight::One() = 0`. -/
def TropicalWeight.one : TropicalWeight := .fin 0

/-- The string compactor over the tropical semiring, as used by
`StdCompactStringFst`. -/
def stdStringCompactor : Compactor TropicalWeight Int :=
  stringCompactor TropicalWeight TropicalWeight.one

/-- The store of a Compact-String FST built from an empty Element
sequence over the tropical semiring. -/
def emptyStringStore : DefaultCompactStore Int :=
  DefaultCompactStore.fromIterator TropicalWeight.zero TropicalWeight.one
    stdStringCompactor []

/-- C1: Building a Compact-String FST (fixed out-degree k=1) from an
empty Element sequence yields a single-state machine: nstates=1,
start=0, the final weight of state 0 is One, and state 0 has no arcs
(both `NumArcs(0) = 0` and an empty arc-iterator yield). -/
theorem compact_string_empty_input_single_state :
    emptyStringStore.nstates = 1 ∧ emptyStringStore.start = 0 ∧
      compactFinal TropicalWeight.zero stdStringCompactor emptyStringStore 0
        = TropicalWeight.one ∧
      compactNumArcs stdStringCompactor emptyStringStore 0 = 0 ∧
      (CompactArcIterator.init stdStringCompactor emptyStringStore 0).toList
        stdStringCompactor emptyStringStore = [] := by
  refine ⟨rfl, rfl, ?_, ?_, ?_⟩ <;> decide

/-- C6: When a Compact-String FST (fixed out-degree k=1) is built from a
non-empty iterator sequence whose last Element expands to a genuine arc
(`ilabel != kNoLabel`, i.e. not the superfinal encoding of a final
weight), the store is extended by one implicit superfinal element
`Compact(n, Arc(kNoLabel, kNoLabel, One, kNoStateId))` appended after
the given elements. -/
theorem iterator_input_extended_by_superfinal
    {W E : Type} [DecidableEq W] [Inhabited E] (zero one : W)
    (c : Compactor W E) (input : List E)
    (hsz : c.sz = 1) (hne : input ≠ [])
    (hlast : (c.expand (input.length - 1)
        (input.getD (input.length - 1) default)).ilabel ≠ kNoLabel) :
    (DefaultCompactStore.fromIterator zero one c input).compacts
        = input ++ [c.compact input.length
            (Arc.mk kNoLabel kNoLabel one kNoStateId)]
      ∧ (DefaultCompactStore.fromIterator zero one c input).ncompacts
          = input.length + 1 := by
  have hn : input.length ≠ 0 := fun h => hne (List.length_eq_zero.mp h)
  have hlast' : (c.expand (input.length - 1)
      (input[input.length - 1]?.getD default)).ilabel ≠ kNoLabel := by
    simpa [List.getD_eq_getElem?_getD] using hlast
  constructor <;>
    simp [DefaultCompactStore.fromIterator, hsz, hlast', hn, Nat.mod_one,
      Nat.lt_succ_self]

/-- Witness for C6 at a concrete input: the string compactor over the
tropical semiring with the single element `5`. -/
theorem iterator_input_extended_by_superfinal_witness :
    stdStringCompactor.sz = 1 ∧ ([5] : List Int) ≠ [] ∧
      (stdStringCompactor.expand (([5] : List Int).length - 1)
        (([5] : List Int).getD (([5] : List Int).length - 1) default)).ilabel
          ≠ kNoLabel ∧
      (DefaultCompactStore.fromIterator TropicalWeight.zero
          TropicalWeight.one stdStringCompactor [5]).compacts
        = [5] ++ [stdStringCompactor.compact ([5] : List Int).length
            (Arc.mk kNoLabel kNoLabel TropicalWeight.one kNoStateId)]
      ∧ (DefaultCompactStore.fromIterator TropicalWeight.zero
          TropicalWeight.one stdStringCompactor [5]).ncompacts
          = ([5] : List Int).length + 1 := by
  refine ⟨by decide, by decide, by decide, ?_⟩
  exact iterator_input_extended_by_superfinal TropicalWeight.zero
    TropicalWeight.one stdStringCompactor [5] (by decide) (by decide)
    (by decide)

/-- `UnweightedAcceptorCompactor` (compact-fst.h): `Element =
(Label, StateId)`, `Compact(s, arc) = (arc.ilabel, arc.nextstate)`,
`Expand(s, p) = Arc(p.first, p.first, One, p.second)`, `Size() = -1`. -/
def unweightedAcceptorCompactor (W : Type) (one : W) :
    Compactor W (Int × Int) where
  sz := -1
  compact := fun _ arc => (arc.ilabel, arc.nextstate)
  expand := fun _ p => Arc.mk p.1 p.1 one p.2

/-- The per-state element blocks written by the fill loop of
`DefaultCompactStore(const Fst&, compactor)`, starting at state `s`. -/
def blocksFrom [DecidableEq W] (c : Compactor W E) (zero : W) :
    Nat → List (W × List (Arc W)) → List (List E)
  | _, [] => []
  | s, st :: rest => stateBlock c zero s st :: blocksFrom c zero (s + 1) rest

/-- The write positions recorded in `states_` by the fill loop, starting
at state `s` and position `pos`. -/
def blockStartsFrom [DecidableEq W] (c : Compactor W E) (zero : W) :
    Nat → Nat → List (W × List (Arc W)) → List Nat
  | _, _, [] => []
  | s, pos, st :: rest =>
    pos :: blockStartsFrom c zero (s + 1) (pos + (stateBlock c zero s st).length) rest

theorem stateBlock_length [DecidableEq W] (c : Compactor W E) (zero : W)
    (s : Nat) (st : W × List (Arc W)) :
    (stateBlock c zero s st).length
      = (if st.1 ≠ zero then 1 else 0) + st.2.length := by
  by_cases h : st.1 = zero <;> simp [stateBlock, h, Nat.add_comm]

theorem blocksFrom_length [DecidableEq W] (c : Compactor W E) (zero : W) :
    ∀ (l : List (W × List (Arc W))) (s : Nat),
      (blocksFrom c zero s l).length = l.length
  | [], _ => rfl
  | _ :: rest, s => by
    simp [blocksFrom, blocksFrom_length c zero rest (s + 1)]

theorem blockStartsFrom_length [DecidableEq W] (c : Compactor W E)
    (zero : W) :
    ∀ (l : List (W × List (Arc W))) (s pos : Nat),
      (blockStartsFrom c zero s pos l).length = l.length
  | [], _, _ => rfl
  | st :: rest, s, pos => by
    simp [blockStartsFrom,
      blockStartsFrom_length c zero rest (s + 1)
        (pos + (stateBlock c zero s st).length)]

theorem blocksFrom_getElem [DecidableEq W] (c : Compactor W E) (zero : W) :
    ∀ (l : List (W × List (Arc W))) (s i : Nat) (h : i < l.length),
      (blocksFrom c zero s l).getD i []
        = stateBlock c zero (s + i) (l.get ⟨i, h⟩)
  | st :: rest, s, 0, _ => by simp [blocksFrom]
  | st :: rest, s, i + 1, h => by
    have hr := blocksFrom_getElem c zero rest (s + 1) i
      (by simpa using Nat.lt_of_succ_lt_succ h)
    simp only [blocksFrom, List.getD_cons_succ, List.get_cons_succ, hr]
    ring_nf

theorem blockStartsFrom_getD [DecidableEq W] (c : Compactor W E)
    (zero : W) :
    ∀ (l : List (W × List (Arc W))) (s pos i : Nat), i < l.length →
      (blockStartsFrom c zero s pos l).getD i 0
        = pos + (((blocksFrom c zero s l).take i).map List.length).sum
  | st :: rest, s, pos, 0, _ => by simp [blockStartsFrom]
  | st :: rest, s, pos, i + 1, h => by
    have hr := blockStartsFrom_getD c zero rest (s + 1)
      (pos + (stateBlock c zero s st).length) i
      (by simpa using Nat.lt_of_succ_lt_succ h)
    simp only [blockStartsFrom, List.getD_cons_succ, hr, blocksFrom,
      List.take_succ_cons, List.map_cons, List.sum_cons]
    omega

theorem flatten_drop_take_sum :
    ∀ (i : Nat) (bs : List (List E)),
      bs.flatten.drop (((bs.take i).map List.length).sum)
        = (bs.drop i).flatten
  | 0, _ => by simp
  | i + 1, [] => by simp
  | i + 1, b :: bs => by
    simp only [List.take_succ_cons, List.map_cons, List.sum_cons,
      List.flatten_cons, List.drop_succ_cons]
    rw [← List.drop_drop, List.drop_left]
    exact flatten_drop_take_sum i bs

theorem fillFstLoop_some_shape [DecidableEq W] (c : Compactor W E)
    (zero : W) (sz : Int) :
    ∀ (l : List (W × List (Arc W))) (s pos : Nat)
      (sts : List Nat) (es : List E),
      fillFstLoop c zero sz s pos l = some (sts, es) →
        sts = blockStartsFrom c zero s pos l
          ∧ es = (blocksFrom c zero s l).flatten
  | [], _, _, sts, es => by
    intro h
    simp only [fillFstLoop, Option.some.injEq, Prod.mk.injEq] at h
    simp [blockStartsFrom, blocksFrom, ← h.1, ← h.2]
  | st :: rest, s, pos, sts, es => by
    intro h
    simp only [fillFstLoop] at h
    split at h
    · exact absurd h (by simp)
    · split at h
      · exact absurd h (by simp)
      · next sts' es' heq =>
        obtain ⟨h1, h2⟩ :=
          fillFstLoop_some_shape c zero sz rest (s + 1)
            (pos + (stateBlock c zero s st).length) sts' es' heq
        simp only [Option.some.injEq, Prod.mk.injEq] at h
        simp [blockStartsFrom, blocksFrom, ← h.1, ← h.2, h1, h2]

theorem fillFstLoop_some_fixed_len [DecidableEq W] (c : Compactor W E)
    (zero : W) (sz : Int) (hsz : sz ≠ -1) :
    ∀ (l : List (W × List (Arc W))) (s pos : Nat)
      (sts : List Nat) (es : List E),
      fillFstLoop c zero sz s pos l = some (sts, es) →
        ∀ (i : Nat) (h : i < l.length),
          ((stateBlock c zero (s + i) (l.get ⟨i, h⟩)).length : Int) = sz
  | [], _, _, _, _ => by intro _ i h; exact absurd h (by simp)
  | st :: rest, s, pos, sts, es => by
    intro hfill i hi
    simp only [fillFstLoop] at hfill
    split at hfill
    · exact absurd hfill (by simp)
    · next hcond =>
      have hlen : ((stateBlock c zero s st).length : Int) = sz := by
        by_contra hne
        exact hcond ⟨hsz, hne⟩
      split at hfill
      · exact absurd hfill (by simp)
      · next sts' es' heq =>
        match i with
        | 0 => simpa using hlen
        | i + 1 =>
          have := fillFstLoop_some_fixed_len c zero sz hsz rest (s + 1)
            (pos + (stateBlock c zero s st).length) sts' es' heq i
            (by simpa using Nat.lt_of_succ_lt_succ hi)
          simpa [Nat.add_comm, Nat.add_assoc, Nat.add_left_comm] using this

theorem fillFstLoop_none_of_bad_block [DecidableEq W] (c : Compactor W E)
    (zero : W) (sz : Int) (hsz : sz ≠ -1) :
    ∀ (l : List (W × List (Arc W))) (s pos : Nat),
      (∃ (i : Nat) (h : i < l.length),
        ((stateBlock c zero (s + i) (l.get ⟨i, h⟩)).length : Int) ≠ sz) →
      fillFstLoop c zero sz s pos l = none
  | [], _, _ => by rintro ⟨i, hi, _⟩; exact absurd hi (by simp)
  | st :: rest, s, pos => by
    rintro ⟨i, hi, hbad⟩
    simp only [fillFstLoop]
    split
    · rfl
    · next hcond =>
      have hlen : ((stateBlock c zero s st).length : Int) = sz := by
        by_contra hne
        exact hcond ⟨hsz, hne⟩
      match i with
      | 0 => exact absurd (by simpa using hlen) (by simpa using hbad)
      | i + 1 =>
        have : fillFstLoop c zero sz (s + 1)
            (pos + (stateBlock c zero s st).length) rest = none := by
          refine fillFstLoop_none_of_bad_block c zero sz hsz rest (s + 1) _
            ⟨i, by simpa using Nat.lt_of_succ_lt_succ hi, ?_⟩
          have hb := hbad
          simpa [Nat.add_comm, Nat.add_assoc, Nat.add_left_comm] using hb
        simp [this]

theorem fromFst_error_false_shape [DecidableEq W] (zero : W)
    (c : Compactor W E) (f : SimpleFst W)
    (herr : (DefaultCompactStore.fromFst zero c f).error = false) :
    ∃ (sts : List Nat) (es : List E),
      fillFstLoop c zero c.sz 0 0 f.states = some (sts, es)
        ∧ (DefaultCompactStore.fromFst zero c f).compacts = es
        ∧ (DefaultCompactStore.fromFst zero c f).states
            = (if c.sz = -1 then
                sts ++ [(DefaultCompactStore.fromFst zero c f).ncompacts]
               else []) := by
  simp only [DefaultCompactStore.fromFst] at herr ⊢
  split at herr
  · simp at herr
  · next hup =>
    rw [if_neg hup]
    split at herr
    · simp at herr
    · next sts es heq =>
      rw [heq]
      refine ⟨sts, es, rfl, ?_, ?_⟩
      · (repeat' split) <;> rfl
      · (repeat' split) <;> rfl

/-- C3: In both compact-store regimes (fixed and variable out-degree),
when a compact store is built from an FST without error, for every final
state `s` the superfinal transition (the element compacted from
`Arc(kNoLabel, kNoLabel, Final(s), kNoStateId)`) is placed first among
`s`'s compacted transitions (i.e. at the offset `States(s)` resp.
`s * Size()`), before all of `s`'s out-arcs, which follow in order. -/
theorem superfinal_stored_first {W E : Type} [DecidableEq W] [Inhabited E]
    (zero : W) (c : Compactor W E) (f : SimpleFst W) (s : Nat)
    (hs : s < f.states.length)
    (hfinal : (f.states.get ⟨s, hs⟩).1 ≠ zero)
    (herr : (DefaultCompactStore.fromFst zero c f).error = false) :
    (DefaultCompactStore.fromFst zero c f).compactsAt
        (compactStateOffset c (DefaultCompactStore.fromFst zero c f) s)
      = c.compact s
          (Arc.mk kNoLabel kNoLabel (f.states.get ⟨s, hs⟩).1 kNoStateId)
    ∧ ((DefaultCompactStore.fromFst zero c f).compacts.drop
          (compactStateOffset c (DefaultCompactStore.fromFst zero c f) s + 1)).take
            (f.states.get ⟨s, hs⟩).2.length
        = (f.states.get ⟨s, hs⟩).2.map (c.compact s) := by
  obtain ⟨sts, es, hfill, hcompacts, hstates⟩ :=
    fromFst_error_false_shape zero c f herr
  obtain ⟨hsts, hes⟩ := fillFstLoop_some_shape c zero c.sz f.states 0 0 sts es hfill
  set d := DefaultCompactStore.fromFst zero c f with hd
  set blocks := blocksFrom c zero 0 f.states with hblocks
  have hblen : blocks.length = f.states.length := blocksFrom_length c zero _ 0
  -- the offset of state s is the sum of the lengths of the blocks before it
  have hoff : compactStateOffset c d s
      = ((blocks.take s).map List.length).sum := by
    by_cases hsz : c.sz = -1
    · have hslt : s < sts.length := by
        rw [hsts, blockStartsFrom_length]; exact hs
      have : d.statesAt s = sts.getD s 0 := by
        simp only [DefaultCompactStore.statesAt, hstates, if_pos hsz]
        exact List.getD_append _ _ _ _ hslt
      rw [compactStateOffset, if_pos hsz, this, hsts,
        blockStartsFrom_getD c zero f.states 0 0 s hs]
      simp [hblocks]
    · -- fixed out-degree: every block has length `Size()`
      have hfix := fillFstLoop_some_fixed_len c zero c.sz hsz f.states 0 0
        sts es hfill
      have hrep : (blocks.take s).map List.length
          = List.replicate s c.sz.toNat := by
        refine List.eq_replicate_iff.2 ⟨?_, ?_⟩
        · simp [hblen, Nat.min_eq_left (Nat.le_of_lt hs)]
        · intro b hb
          obtain ⟨blk, hblk, hlenb⟩ := List.mem_map.1 hb
          obtain ⟨i, hget⟩ := List.mem_iff_get.1 (List.mem_of_mem_take hblk)
          have hi' : i.1 < f.states.length := by
            rw [← hblen]; exact i.2
          have hig : blocks.getD i.1 [] = blk := by
            rw [List.getD_eq_getElem _ _ i.2]
            simpa using hget
          have hbl := blocksFrom_getElem c zero f.states 0 i.1 hi'
          rw [← hblocks] at hbl
          have hlen := hfix i.1 hi'
          rw [← hlenb, ← hig, hbl]
          omega
      rw [compactStateOffset, if_neg hsz, hrep]
      simp [Nat.mul_comm]
  -- split the flattened blocks at state s
  have hslt : s < blocks.length := by rw [hblen]; exact hs
  have hbs : blocks.get ⟨s, hslt⟩
      = stateBlock c zero s (f.states.get ⟨s, hs⟩) := by
    have := blocksFrom_getElem c zero f.states 0 s hs
    rw [← hblocks] at this
    rw [List.getD_eq_getElem _ _ hslt] at this
    simpa using this
  have hdropoff : d.compacts.drop (compactStateOffset c d s)
      = stateBlock c zero s (f.states.get ⟨s, hs⟩)
          ++ (blocks.drop (s + 1)).flatten := by
    rw [hcompacts, hes, hoff, flatten_drop_take_sum,
      List.drop_eq_getElem_cons hslt, List.flatten_cons]
    have : blocks[s] = stateBlock c zero s (f.states.get ⟨s, hs⟩) := by
      simpa using hbs
    rw [this]
  have hblock : stateBlock c zero s (f.states.get ⟨s, hs⟩)
      = c.compact s
          (Arc.mk kNoLabel kNoLabel (f.states.get ⟨s, hs⟩).1 kNoStateId)
        :: (f.states.get ⟨s, hs⟩).2.map (c.compact s) := by
    have hfinal' : f.states[s].1 ≠ zero := by simpa using hfinal
    simp [stateBlock, hfinal']
  constructor
  · rw [DefaultCompactStore.compactsAt, List.getD_eq_getElem?_getD]
    have h1 : d.compacts[compactStateOffset c d s]?
        = (d.compacts.drop (compactStateOffset c d s))[0]? := by
      rw [List.getElem?_drop, Nat.add_zero]
    rw [h1, hdropoff, hblock]
    simp
  · have hdrop1 : d.compacts.drop (compactStateOffset c d s + 1)
        = (f.states.get ⟨s, hs⟩).2.map (c.compact s)
            ++ (blocks.drop (s + 1)).flatten := by
      rw [← List.drop_drop, hdropoff, hblock]
      simp
    rw [hdrop1, List.take_left' (by simp)]

/-- The unweighted-acceptor compactor over the tropical semiring
(a variable out-degree compactor, `Size() = -1`). -/
def c3Compactor : Compactor TropicalWeight (Int × Int) :=
  unweightedAcceptorCompactor TropicalWeight TropicalWeight.one

/-- A one-state FST: state 0 is final with weight One and carries one
self-loop labelled 1. -/
def c3Fst : SimpleFst TropicalWeight :=
  ⟨0, [(TropicalWeight.one, [Arc.mk 1 1 TropicalWeight.one 0])]⟩

/-- Witness for C3 at a concrete input: the variable out-degree regime
with a final state that also has an out-arc. -/
theorem superfinal_stored_first_witness :
    (c3Fst.states.get ⟨0, Nat.zero_lt_succ _⟩).1 ≠ TropicalWeight.zero
    ∧ (DefaultCompactStore.fromFst TropicalWeight.zero c3Compactor
        c3Fst).error = false
    ∧ ((DefaultCompactStore.fromFst TropicalWeight.zero c3Compactor
          c3Fst).compactsAt
            (compactStateOffset c3Compactor
              (DefaultCompactStore.fromFst TropicalWeight.zero c3Compactor
                c3Fst) 0)
          = c3Compactor.compact 0
              (Arc.mk kNoLabel kNoLabel
                (c3Fst.states.get ⟨0, Nat.zero_lt_succ _⟩).1 kNoStateId)
        ∧ ((DefaultCompactStore.fromFst TropicalWeight.zero c3Compactor
              c3Fst).compacts.drop
                (compactStateOffset c3Compactor
                  (DefaultCompactStore.fromFst TropicalWeight.zero
                    c3Compactor c3Fst) 0 + 1)).take
                  (c3Fst.states.get ⟨0, Nat.zero_lt_succ _⟩).2.length
            = (c3Fst.states.get ⟨0, Nat.zero_lt_succ _⟩).2.map
                (c3Compactor.compact 0)) :=
  ⟨by decide, by decide,
    superfinal_stored_first TropicalWeight.zero c3Compactor c3Fst 0
      (Nat.zero_lt_succ _) (by decide) (by decide)⟩

/-- Modelled from the spec: the `Error` bit of the 64-bit property set
(`fst/properties.h` is not among the sources; the spec records only that
an `Error` bit exists and is sticky, so its position is fixed here
arbitrarily). -/
def kErrorBit : Nat := 2

/-- Modelled from the spec: the `kError` property mask. -/
def kError : Nat := 2 ^ kErrorBit

/-- Modelled from the spec: the `kExpanded` property mask (position
arbitrary, distinct from `kError`). -/
def kExpanded : Nat := 1

/-- `CompactFstImpl::kStaticProperties = kExpanded` (compact-fst.h). -/
def kStaticProperties : Nat := kExpanded

/-- All 64 property bits. -/
def kAllProperties : Nat := 2 ^ 64 - 1

/-- Modelled from the spec: `FstImpl::SetProperties(props, mask)`
(`fst.h` is not among the sources): replaces the masked bits. -/
def setPropertiesMasked (old props mask : Nat) : Nat :=
  (old &&& (kAllProperties ^^^ mask)) ||| (props &&& mask)

/-- Modelled from the spec: the single-argument
`FstImpl::SetProperties(props)` (`fst.h` is not among the sources),
which preserves the sticky `Error` bit. -/
def setPropertiesSticky (old props : Nat) : Nat :=
  (old &&& kError) ||| props

/-- The property bits computed by `CompactFstImpl::Init` (compact-fst.h):
starting from zero properties, `SetProperties(kError, kError)` when the
store has its error flag set; then, when the copied properties carry
`kError` or the compactor is incompatible, `SetProperties(kError,
kError)` and return; otherwise `SetProperties(copy_properties |
kStaticProperties)`. -/
def compactInitProperties (d : DefaultCompactStore E) (copyProps : Nat)
    (compatible : Bool) : Nat :=
  let p1 := if d.error then setPropertiesMasked 0 kError kError else 0
  if copyProps &&& kError ≠ 0 ∨ compatible = false then
    setPropertiesMasked p1 kError kError
  else setPropertiesSticky p1 (copyProps ||| kStaticProperties)

/-- `CompactFstImpl::NumStates()` (compact-fst.h): returns 0 when the
`Error` property bit is set, else the store's state count. -/
def compactNumStates (props : Nat) (d : DefaultCompactStore E) : Nat :=
  if props &&& kError ≠ 0 then 0 else d.nstates

theorem kError_lor_and_ne_zero (x : Nat) : (kError ||| x) &&& kError ≠ 0 := by
  intro h
  have ht : ((kError ||| x) &&& kError).testBit kErrorBit = true := by
    have h4 : Nat.testBit 4 2 = true := by decide
    simp [Nat.testBit_and, Nat.testBit_or, kError, kErrorBit, h4]
  rw [h] at ht
  simp at ht

theorem lor_kError_and_ne_zero (x : Nat) : (x ||| kError) &&& kError ≠ 0 := by
  rw [Nat.lor_comm]
  exact kError_lor_and_ne_zero x

/-- C4: When a compact store with a fixed out-degree compactor
(`Size() = k > 0`) is built from an FST in which some state does not
have exactly k compacted transitions (counting a non-Zero final weight
as one transition), the store's error flag is set and the resulting
CompactFst is marked with the Error property bit by
`CompactFstImpl::Init`. -/
theorem fixed_outdegree_mismatch_sets_error {W E : Type} [DecidableEq W]
    (zero : W) (c : Compactor W E) (f : SimpleFst W)
    (copyProps : Nat) (compatible : Bool)
    (hk : 0 < c.sz)
    (hbad : ∃ (s : Nat) (h : s < f.states.length),
      (f.states.get ⟨s, h⟩).2.length
          + (if (f.states.get ⟨s, h⟩).1 ≠ zero then 1 else 0)
        ≠ c.sz.toNat) :
    (DefaultCompactStore.fromFst zero c f).error = true
    ∧ compactInitProperties (DefaultCompactStore.fromFst zero c f)
        copyProps compatible &&& kError ≠ 0 := by
  have hsz : c.sz ≠ -1 := by omega
  have herr : (DefaultCompactStore.fromFst zero c f).error = true := by
    simp only [DefaultCompactStore.fromFst]
    split
    · rfl
    · obtain ⟨s, hslt, hcount⟩ := hbad
      have hbadblock :
          ((stateBlock c zero (0 + s) (f.states.get ⟨s, hslt⟩)).length : Int)
            ≠ c.sz := by
        intro hEq
        apply hcount
        rw [stateBlock_length] at hEq
        omega
      have hnone := fillFstLoop_none_of_bad_block c zero c.sz hsz f.states
        0 0 ⟨s, hslt, hbadblock⟩
      rw [hnone]
  refine ⟨herr, ?_⟩
  simp only [compactInitProperties, herr, if_true]
  have hp1 : setPropertiesMasked 0 kError kError = kError := by decide
  rw [hp1]
  split
  · have h2 : setPropertiesMasked kError kError kError = kError ||| kError := by
      decide
    rw [h2]
    exact kError_lor_and_ne_zero kError
  · rw [setPropertiesSticky]
    have h3 : kError &&& kError = kError := by decide
    rw [h3]
    exact kError_lor_and_ne_zero _

/-- Witness for C4 at a concrete input: the string compactor (k = 1)
applied to a one-state FST whose state has two compacted transitions
(one arc plus a non-Zero final weight). -/
theorem fixed_outdegree_mismatch_sets_error_witness :
    0 < stdStringCompactor.sz
    ∧ (∃ (s : Nat) (h : s < (⟨0, [(TropicalWeight.one,
          [Arc.mk 1 1 TropicalWeight.one 1])]⟩ :
            SimpleFst TropicalWeight).states.length),
        ((⟨0, [(TropicalWeight.one, [Arc.mk 1 1 TropicalWeight.one 1])]⟩ :
            SimpleFst TropicalWeight).states.get ⟨s, h⟩).2.length
            + (if ((⟨0, [(TropicalWeight.one,
                  [Arc.mk 1 1 TropicalWeight.one 1])]⟩ :
                    SimpleFst TropicalWeight).states.get ⟨s, h⟩).1
                  ≠ TropicalWeight.zero then 1 else 0)
          ≠ stdStringCompactor.sz.toNat)
    ∧ ((DefaultCompactStore.fromFst TropicalWeight.zero stdStringCompactor
          ⟨0, [(TropicalWeight.one, [Arc.mk 1 1 TropicalWeight.one 1])]⟩).error
            = true
        ∧ compactInitProperties
            (DefaultCompactStore.fromFst TropicalWeight.zero
              stdStringCompactor
              ⟨0, [(TropicalWeight.one, [Arc.mk 1 1 TropicalWeight.one 1])]⟩)
            0 true &&& kError ≠ 0) :=
  ⟨by decide, ⟨0, Nat.zero_lt_succ _, by decide⟩,
    fixed_outdegree_mismatch_sets_error TropicalWeight.zero
      stdStringCompactor ⟨0, [(TropicalWeight.one,
        [Arc.mk 1 1 TropicalWeight.one 1])]⟩ 0 true (by decide)
      ⟨0, Nat.zero_lt_succ _, by decide⟩⟩

/-- C10: For every CompactFst whose Error property bit is set,
`NumStates()` returns 0 regardless of the number of states recorded in
the underlying compact store. -/
theorem error_bit_numstates_zero {E : Type} (props : Nat)
    (d : DefaultCompactStore E) (h : props &&& kError ≠ 0) :
    compactNumStates props d = 0 := by
  simp [compactNumStates, h]

/-- Witness for C10 at a concrete input: a store recording 7 states,
properties with the Error bit set. -/
theorem error_bit_numstates_zero_witness :
    kError &&& kError ≠ 0
    ∧ compactNumStates kError
        (⟨[], [], 7, 0, 0, 0, false⟩ : DefaultCompactStore Int) = 0 :=
  ⟨by decide,
    error_bit_numstates_zero kError ⟨[], [], 7, 0, 0, 0, false⟩ (by decide)⟩

theorem compactArcRun_eq [Inhabited E] (c : Compactor W E)
    (d : DefaultCompactStore E) (s : Nat) :
    ∀ (fuel off pos n : Nat), n ≤ pos + fuel →
      off + n ≤ d.compacts.length →
      compactArcRun c d fuel ⟨s, off, pos, n⟩
        = ((d.compacts.drop (off + pos)).take (n - pos)).map (c.expand s)
  | 0, off, pos, n => by
    intro hfuel _
    have : n - pos = 0 := by omega
    simp [compactArcRun, this]
  | fuel + 1, off, pos, n => by
    intro hfuel hle
    by_cases hdone : n ≤ pos
    · have : n - pos = 0 := by omega
      simp [compactArcRun, CompactArcIterator.isDone, hdone, this]
    · have hpos : pos < n := by omega
      have hidx : off + pos < d.compacts.length := by omega
      have hrec := compactArcRun_eq c d s fuel off (pos + 1) n (by omega) hle
      have hval : CompactArcIterator.value c d ⟨s, off, pos, n⟩
          = c.expand s d.compacts[off + pos] := by
        simp [CompactArcIterator.value, DefaultCompactStore.compactsAt,
          List.getElem?_eq_getElem hidx]
      have hdrop : d.compacts.drop (off + pos)
          = d.compacts[off + pos] :: d.compacts.drop (off + pos + 1) :=
        List.drop_eq_getElem_cons hidx
      have hsub : n - pos = (n - (pos + 1)) + 1 := by omega
      simp only [compactArcRun, CompactArcIterator.isDone,
        decide_eq_true_eq, if_neg hdone, hval, CompactArcIterator.next,
        hrec, hdrop, hsub, List.take_succ_cons, List.map_cons]
      simp [Nat.add_assoc]

/-- C5: For every state `s` of a CompactFst over a DefaultCompactStore
(both out-degree regimes, state range in bounds), the arc iterator reads
the compact elements directly: it expands the first element of `s`'s
range to test for a superfinal transition, skips it if present
(decrementing the arc count by one), and then yields, in layout order,
exactly the expansions `Expand(s, compacts[pos])` of the remaining
elements. -/
theorem arc_iterator_skips_superfinal {W E : Type} [Inhabited E]
    (c : Compactor W E) (d : DefaultCompactStore E) (s : Nat)
    (hbound : compactStateOffset c d s + compactStateNum c d s
      ≤ d.compacts.length) :
    (CompactArcIterator.init c d s).toList c d
        = (if segHasSuperfinal c s (compactStateSeg c d s)
           then (compactStateSeg c d s).tail
           else compactStateSeg c d s).map (c.expand s)
    ∧ (CompactArcIterator.init c d s).numArcs
        = compactStateNum c d s
            - (if segHasSuperfinal c s (compactStateSeg c d s) then 1
               else 0) := by
  set off := compactStateOffset c d s with hoffdef
  set num := compactStateNum c d s with hnumdef
  by_cases hnum : 0 < num
  · have hofflt : off < d.compacts.length := by omega
    obtain ⟨m, hm⟩ : ∃ m, num = m + 1 := ⟨num - 1, by omega⟩
    have hseg : compactStateSeg c d s
        = d.compacts[off] :: (d.compacts.drop (off + 1)).take m := by
      rw [compactStateSeg, ← hoffdef, ← hnumdef, hm,
        List.drop_eq_getElem_cons hofflt, List.take_succ_cons]
    have hget : d.compactsAt off = d.compacts[off] := by
      simp [DefaultCompactStore.compactsAt, List.getElem?_eq_getElem hofflt]
    by_cases hsf : (c.expand s d.compacts[off]).ilabel = kNoStateId
    · have hinit : CompactArcIterator.init c d s
          = ⟨s, off + 1, 0, m⟩ := by
        rw [CompactArcIterator.init, ← hoffdef, ← hnumdef, if_pos hnum,
          hget, if_pos hsf, hm]
        simp
      have hsfb : segHasSuperfinal c s (compactStateSeg c d s) = true := by
        rw [hseg, segHasSuperfinal]
        simpa using hsf
      rw [hinit, hsfb, hseg, hm]
      constructor
      · rw [CompactArcIterator.toList,
          compactArcRun_eq c d s m (off + 1) 0 m (by omega) (by omega)]
        simp
      · simp
    · have hinit : CompactArcIterator.init c d s = ⟨s, off, 0, num⟩ := by
        rw [CompactArcIterator.init, ← hoffdef, ← hnumdef, if_pos hnum,
          hget, if_neg hsf]
      have hsfb : segHasSuperfinal c s (compactStateSeg c d s) = false := by
        rw [hseg, segHasSuperfinal]
        simpa using hsf
      rw [hinit, hsfb]
      constructor
      · rw [CompactArcIterator.toList,
          compactArcRun_eq c d s num off 0 num (by omega) (by omega),
          compactStateSeg, ← hoffdef, ← hnumdef]
        simp
      · simp
  · have hnum0 : num = 0 := by omega
    have hseg : compactStateSeg c d s = [] := by
      rw [compactStateSeg, ← hnumdef, hnum0]
      simp
    have hinit : CompactArcIterator.init c d s = ⟨s, off, 0, num⟩ := by
      rw [CompactArcIterator.init, ← hoffdef, ← hnumdef, if_neg hnum]
    rw [hinit, hseg, hnum0]
    simp [CompactArcIterator.toList, compactArcRun, segHasSuperfinal]

/-- The store of a Compact-String FST over the single element `5`;
its layout is the arc element followed by the implicit superfinal
element. -/
def c5Store : DefaultCompactStore Int :=
  DefaultCompactStore.fromIterator TropicalWeight.zero TropicalWeight.one
    stdStringCompactor [5]

/-- Witness for C5 at a concrete input: state 0 of the two-state
Compact-String FST for the string "5". -/
theorem arc_iterator_skips_superfinal_witness :
    compactStateOffset stdStringCompactor c5Store 0
        + compactStateNum stdStringCompactor c5Store 0
      ≤ c5Store.compacts.length
    ∧ ((CompactArcIterator.init stdStringCompactor c5Store 0).toList
          stdStringCompactor c5Store
        = (if segHasSuperfinal stdStringCompactor 0
              (compactStateSeg stdStringCompactor c5Store 0)
           then (compactStateSeg stdStringCompactor c5Store 0).tail
           else compactStateSeg stdStringCompactor c5Store 0).map
            (stdStringCompactor.expand 0)
      ∧ (CompactArcIterator.init stdStringCompactor c5Store 0).numArcs
          = compactStateNum stdStringCompactor c5Store 0
              - (if segHasSuperfinal stdStringCompactor 0
                    (compactStateSeg stdStringCompactor c5Store 0) then 1
                 else 0)) :=
  ⟨by decide,
    arc_iterator_skips_superfinal stdStringCompactor c5Store 0 (by decide)⟩

/-- The semiring operations an `ExpectationWeight<W1, W2>` instantiation
draws on (expectation-weight.h): the component operations of `W1` and
`W2` and the external products `Times : W1 × W2 → W2` and
`Times : W2 × W1 → W2` resolved by overloading in the C++ (for `W1 = W2`
these are one and the same multiplication). -/
structure ExpSemiring (W1 W2 : Type) where
  plus1 : W1 → W1 → W1
  times1 : W1 → W1 → W1
  zero1 : W1
  one1 : W1
  plus2 : W2 → W2 → W2
  zero2 : W2
  times12 : W1 → W2 → W2
  times21 : W2 → W1 → W2

/-- `ExpectationWeight<W1, W2>`, a pair weight (pair-weight.h supplies
only the `(Value1, Value2)` pair representation). -/
structure ExpectationWeight (W1 W2 : Type) where
  value1 : W1
  value2 : W2
deriving DecidableEq, Repr

/-- `Times` on `ExpectationWeight` (expectation-weight.h):
`(Times(a1, a2), Plus(Times(a1, b2), Times(b1, a2)))`. -/
def ExpectationWeight.times (R : ExpSemiring W1 W2)
    (x y : ExpectationWeight W1 W2) : ExpectationWeight W1 W2 :=
  ⟨R.times1 x.value1 y.value1,
   R.plus2 (R.times12 x.value1 y.value2) (R.times21 x.value2 y.value1)⟩

/-- `Plus` on `ExpectationWeight` (expectation-weight.h):
component-wise. -/
def ExpectationWeight.plus (R : ExpSemiring W1 W2)
    (x y : ExpectationWeight W1 W2) : ExpectationWeight W1 W2 :=
  ⟨R.plus1 x.value1 y.value1, R.plus2 x.value2 y.value2⟩

/-- `ExpectationWeight::One() = (W1::One(), W2::Zero())`
(expectation-weight.h). -/
def ExpectationWeight.one (R : ExpSemiring W1 W2) :
    ExpectationWeight W1 W2 :=
  ⟨R.one1, R.zero2⟩

/-- `ExpectationWeight::Zero() = (W1::Zero(), W2::Zero())`
(expectation-weight.h). -/
def ExpectationWeight.zero (R : ExpSemiring W1 W2) :
    ExpectationWeight W1 W2 :=
  ⟨R.zero1, R.zero2⟩

/-- C2: For all expectation weights `(a, b)` and `(a', b')`,
`Times((a,b),(a',b'))` equals `(a⊗a', a⊗b' ⊕ a'⊗b)` where `⊗` and `⊕`
are the component semirings' `Times` and `Plus`, and
`ExpectationWeight::One()` equals `(W1::One(), W2::Zero())`.  The code
computes the second component as `Times(b, a') = b⊗a'`; the hypothesis
records the external product's commutativity (automatic for the
library's commutative component semirings), under which this is the
claimed `a'⊗b`. -/
theorem expectation_times_and_one {W1 W2 : Type} (R : ExpSemiring W1 W2)
    (hcomm : ∀ (x : W1) (y : W2), R.times21 y x = R.times12 x y)
    (a a' : W1) (b b' : W2) :
    ExpectationWeight.times R ⟨a, b⟩ ⟨a', b'⟩
        = ⟨R.times1 a a', R.plus2 (R.times12 a b') (R.times12 a' b)⟩
    ∧ ExpectationWeight.one R = (⟨R.one1, R.zero2⟩ :
        ExpectationWeight W1 W2) := by
  constructor
  · simp [ExpectationWeight.times, hcomm]
  · rfl

/-- The expectation-semiring operations over natural numbers (ordinary
addition and multiplication in both components). -/
def natExpSemiring : ExpSemiring Nat Nat where
  plus1 := Nat.add
  times1 := Nat.mul
  zero1 := 0
  one1 := 1
  plus2 := Nat.add
  zero2 := 0
  times12 := Nat.mul
  times21 := Nat.mul

/-- Witness for C2 at a concrete input: the natural-number
instantiation at `(2, 5)` and `(3, 7)`. -/
theorem expectation_times_and_one_witness :
    (∀ (x : Nat) (y : Nat),
      natExpSemiring.times21 y x = natExpSemiring.times12 x y)
    ∧ (ExpectationWeight.times natExpSemiring ⟨2, 5⟩ ⟨3, 7⟩
          = ⟨natExpSemiring.times1 2 3,
             natExpSemiring.plus2 (natExpSemiring.times12 2 7)
               (natExpSemiring.times12 3 5)⟩
        ∧ ExpectationWeight.one natExpSemiring
            = (⟨natExpSemiring.one1, natExpSemiring.zero2⟩ :
                ExpectationWeight Nat Nat)) :=
  ⟨fun x y => Nat.mul_comm y x,
    expectation_times_and_one natExpSemiring
      (fun x y => Nat.mul_comm y x) 2 3 5 7⟩

/-- An input stream for the alignment helpers: only the position is
relevant.  A negative `pos` models `tellg()` failing (the position
cannot be determined); reading one character advances the position. -/
structure InByteStream where
  pos : Int
deriving DecidableEq, Repr

/-- An output stream for the alignment helpers: the position and the
bytes written so far.  `strm.write("", 1)` writes one NUL byte. -/
structure OutByteStream where
  pos : Int
  written : List Nat
deriving DecidableEq, Repr

/-- The loop of `AlignInput` (util.cc): up to `align` iterations; each
iteration fails if the position cannot be determined, stops when the
position is a multiple of `align`, and otherwise consumes one byte.
`none` models returning `false`. -/
def alignInputLoop (align : Nat) : Nat → Int → Option Int
  | 0, pos => some pos
  | fuel + 1, pos =>
    if pos < 0 then none
    else if pos % (align : Int) = 0 then some pos
    else alignInputLoop align fuel (pos + 1)

/-- `AlignInput(strm, align)` (util.cc). -/
def alignInput (strm : InByteStream) (align : Nat) : Bool × InByteStream :=
  match alignInputLoop align align strm.pos with
  | none => (false, strm)
  | some p => (true, ⟨p⟩)

/-- The loop of `AlignOutput` (util.cc): as for `AlignInput`, but
writing NUL bytes instead of consuming. -/
def alignOutputLoop (align : Nat) :
    Nat → Int → List Nat → Option (Int × List Nat)
  | 0, pos, w => some (pos, w)
  | fuel + 1, pos, w =>
    if pos < 0 then none
    else if pos % (align : Int) = 0 then some (pos, w)
    else alignOutputLoop align fuel (pos + 1) (w ++ [0])

/-- `AlignOutput(strm, align)` (util.cc). -/
def alignOutput (strm : OutByteStream) (align : Nat) :
    Bool × OutByteStream :=
  match alignOutputLoop align align strm.pos strm.written with
  | none => (false, strm)
  | some pw => (true, ⟨pw.1, pw.2⟩)

theorem emod_sub_one {n a : Int} (hn : 0 < n) (h : a % n ≠ 0) :
    (a - 1) % n = a % n - 1 := by
  have h0 : 0 ≤ a % n := Int.emod_nonneg a (by omega)
  have h1 : a % n < n := Int.emod_lt_of_pos a hn
  have key := Int.ediv_add_emod a n
  have ha : a - 1 = (a % n - 1) + n * (a / n) := by omega
  rw [ha, Int.add_mul_emod_self_left]
  exact Int.emod_eq_of_lt (by omega) (by omega)

theorem neg_emod_step {align : Nat} (ha : 0 < align) {pos : Int}
    (hnz : (-pos) % (align : Int) ≠ 0) :
    (-(pos + 1)) % (align : Int) = (-pos) % (align : Int) - 1 := by
  have heq : -(pos + 1) = -pos - 1 := by ring
  rw [heq]
  exact emod_sub_one (by exact_mod_cast ha) hnz

theorem neg_emod_zero_of_emod_zero {n pos : Int} (h : pos % n = 0) :
    (-pos) % n = 0 :=
  Int.emod_eq_zero_of_dvd (Int.dvd_neg.2 (Int.dvd_of_emod_eq_zero h))

theorem emod_zero_of_neg_emod_zero {n pos : Int} (h : (-pos) % n = 0) :
    pos % n = 0 :=
  Int.emod_eq_zero_of_dvd (Int.dvd_neg.1 (Int.dvd_of_emod_eq_zero h))

theorem alignInputLoop_some (align : Nat) (ha : 0 < align) :
    ∀ (fuel : Nat) (pos : Int), 0 ≤ pos →
      ((-pos) % (align : Int)).toNat < fuel →
      alignInputLoop align fuel pos
        = some (pos + (-pos) % (align : Int)) := by
  intro fuel
  induction fuel with
  | zero => intro pos _ h; omega
  | succ f ih =>
    intro pos hpos hf
    rw [alignInputLoop, if_neg (by omega)]
    by_cases hmod : pos % (align : Int) = 0
    · rw [if_pos hmod, neg_emod_zero_of_emod_zero hmod]
      simp
    · rw [if_neg hmod]
      have hnz : (-pos) % (align : Int) ≠ 0 :=
        fun h0 => hmod (emod_zero_of_neg_emod_zero h0)
      have hstep := neg_emod_step ha hnz
      have h0 : 0 ≤ (-pos) % (align : Int) :=
        Int.emod_nonneg _ (by exact_mod_cast Nat.pos_iff_ne_zero.1 ha)
      rw [ih (pos + 1) (by omega) (by rw [hstep]; omega), hstep]
      exact congrArg some (by omega)

theorem alignOutputLoop_some (align : Nat) (ha : 0 < align) :
    ∀ (fuel : Nat) (pos : Int) (w : List Nat), 0 ≤ pos →
      ((-pos) % (align : Int)).toNat < fuel →
      alignOutputLoop align fuel pos w
        = some (pos + (-pos) % (align : Int),
            w ++ List.replicate ((-pos) % (align : Int)).toNat 0) := by
  intro fuel
  induction fuel with
  | zero => intro pos w _ h; omega
  | succ f ih =>
    intro pos w hpos hf
    rw [alignOutputLoop, if_neg (by omega)]
    by_cases hmod : pos % (align : Int) = 0
    · rw [if_pos hmod, neg_emod_zero_of_emod_zero hmod]
      simp
    · rw [if_neg hmod]
      have hnz : (-pos) % (align : Int) ≠ 0 :=
        fun h0 => hmod (emod_zero_of_neg_emod_zero h0)
      have hstep := neg_emod_step ha hnz
      have h0 : 0 ≤ (-pos) % (align : Int) :=
        Int.emod_nonneg _ (by exact_mod_cast Nat.pos_iff_ne_zero.1 ha)
      rw [ih (pos + 1) (w ++ [0]) (by omega) (by rw [hstep]; omega), hstep]
      refine congrArg some (Prod.ext (by omega) ?_)
      have hcount : ((-pos) % (align : Int)).toNat
          = ((-pos) % (align : Int) - 1).toNat + 1 := by omega
      rw [hcount, List.replicate_succ, List.append_assoc]
      rfl

theorem pos_add_neg_emod_self (align : Nat) (ha : 0 < align) (p : Int) :
    (p + (-p) % (align : Int)) % (align : Int) = 0 := by
  have hne : (align : Int) ≠ 0 := by exact_mod_cast Nat.pos_iff_ne_zero.1 ha
  rw [Int.add_emod, Int.emod_emod_of_dvd _ dvd_rfl, ← Int.add_emod]
  simp

/-- C8: `AlignInput(strm, align)` consumes exactly `(-pos) mod align`
bytes so that the stream position becomes a multiple of `align`, and
returns false if and only if the stream position cannot be determined;
`AlignOutput(strm, align)` symmetrically writes that many NUL bytes,
returning false exactly when the position cannot be determined. -/
theorem align_input_output_spec (p : Int) (w : List Nat) (align : Nat)
    (ha : 0 < align) :
    ((alignInput ⟨p⟩ align).1 = false ↔ p < 0)
    ∧ (0 ≤ p →
        (alignInput ⟨p⟩ align).2.pos = p + (-p) % (align : Int)
        ∧ (alignInput ⟨p⟩ align).2.pos % (align : Int) = 0)
    ∧ ((alignOutput ⟨p, w⟩ align).1 = false ↔ p < 0)
    ∧ (0 ≤ p →
        (alignOutput ⟨p, w⟩ align).2.pos = p + (-p) % (align : Int)
        ∧ (alignOutput ⟨p, w⟩ align).2.written
            = w ++ List.replicate ((-p) % (align : Int)).toNat 0
        ∧ (alignOutput ⟨p, w⟩ align).2.pos % (align : Int) = 0) := by
  have hfuel : 0 ≤ p → ((-p) % (align : Int)).toNat < align := by
    intro hp
    have h1 : (-p) % (align : Int) < (align : Int) :=
      Int.emod_lt_of_pos _ (by exact_mod_cast ha)
    omega
  by_cases hp : 0 ≤ p
  · have hin := alignInputLoop_some align ha align p hp (hfuel hp)
    have hout := alignOutputLoop_some align ha align p w hp (hfuel hp)
    refine ⟨?_, fun _ => ⟨?_, ?_⟩, ?_, fun _ => ⟨?_, ?_, ?_⟩⟩ <;>
      simp [alignInput, alignOutput, hin, hout,
        pos_add_neg_emod_self align ha p]
    · omega
    · omega
  · have hneg : p < 0 := by omega
    obtain ⟨f, hf⟩ : ∃ f, align = f + 1 := ⟨align - 1, by omega⟩
    have hin : alignInputLoop align align p = none := by
      rw [hf, alignInputLoop, if_pos (by omega)]
    have hout : alignOutputLoop align align p w = none := by
      rw [hf, alignOutputLoop, if_pos (by omega)]
    refine ⟨?_, fun hc => absurd hc (by omega), ?_,
        fun hc => absurd hc (by omega)⟩ <;>
      simp [alignInput, alignOutput, hin, hout, hneg]

/-- Witness for C8 at a concrete input: position 5, alignment 4. -/
theorem align_input_output_spec_witness :
    0 < 4
    ∧ (((alignInput ⟨5⟩ 4).1 = false ↔ (5 : Int) < 0)
      ∧ ((0 : Int) ≤ 5 →
          (alignInput ⟨5⟩ 4).2.pos = 5 + (-5 : Int) % (4 : Int)
          ∧ (alignInput ⟨5⟩ 4).2.pos % (4 : Int) = 0)
      ∧ ((alignOutput ⟨5, []⟩ 4).1 = false ↔ (5 : Int) < 0)
      ∧ ((0 : Int) ≤ 5 →
          (alignOutput ⟨5, []⟩ 4).2.pos = 5 + (-5 : Int) % (4 : Int)
          ∧ (alignOutput ⟨5, []⟩ 4).2.written
              = [] ++ List.replicate ((-5 : Int) % (4 : Int)).toNat 0
          ∧ (alignOutput ⟨5, []⟩ 4).2.pos % (4 : Int) = 0)) :=
  ⟨by decide, align_input_output_spec 5 [] 4 (by decide)⟩

/-- `MappedFile::Map(istrm, memorymap, source, size)` (mapped-file.cc):
the implementation is `return NULL;` — no region is ever produced.  The
region type is a byte list; `none` models the NULL pointer. -/
def mappedFileMap (memorymap : Bool) (source : List Char) (size : Nat) :
    Option (List Nat) :=
  none

/-- `MappedFile::Allocate(size, align)` (mapped-file.cc): `return
NULL;`. -/
def mappedFileAllocate (size : Nat) (align : Nat) : Option (List Nat) :=
  none

/-- `MappedFile::Borrow(data)` (mapped-file.cc): `return NULL;`. -/
def mappedFileBorrow (data : List Nat) : Option (List Nat) :=
  none

/-- The dependency of `DefaultCompactStore::Read` (compact-fst.h) on
`MappedFile::Map`: each array region is obtained from `Map`, and a NULL
result makes `Read` fail (`return nullptr`). -/
def compactStoreReadRegion (memorymap : Bool) (source : List Char)
    (bytes : Nat) : Option (List Nat) :=
  match mappedFileMap memorymap source bytes with
  | none => none
  | some region => some region

/-- C9 (refutation at concrete inputs): none of the three `MappedFile`
constructors ever yields a region — `Map`, `Allocate` and `Borrow` all
return NULL in mapped-file.cc — so `DefaultCompactStore::Read` can never
obtain its arrays through `MappedFile::Map`. -/
theorem mappedfile_constructors_all_null :
    mappedFileAllocate 16 8 = none
    ∧ mappedFileMap true ['f'] 4 = none
    ∧ mappedFileBorrow [0] = none
    ∧ compactStoreReadRegion true ['f'] 4 = none :=
  ⟨rfl, rfl, rfl, rfl⟩

/-- The accumulator loop of `SplitString(line, delim,
omit_empty_strings)` (util.cc): scan the line; a character in `delim`
ends the current piece (an empty piece is kept only when
`omit_empty_strings` is false), any other character extends it. -/
def splitStringAux (delim : List Char) (omitEmpty : Bool)
    (cur : List Char) : List Char → List (List Char)
  | [] => if omitEmpty && cur.isEmpty then [] else [cur]
  | ch :: rest =>
    if ch ∈ delim then
      if omitEmpty && cur.isEmpty then splitStringAux delim omitEmpty [] rest
      else cur :: splitStringAux delim omitEmpty [] rest
    else splitStringAux delim omitEmpty (cur ++ [ch]) rest

/-- `SplitString(line, delim, omit_empty_strings)` (util.cc). -/
def splitString (line delim : List Char) (omitEmpty : Bool) :
    List (List Char) :=
  splitStringAux delim omitEmpty [] line

/-- `std::string operator<`: lexicographic byte comparison, as used by
`end_key < ikey` in `FarExtract` and by FAR key ordering. -/
def ltKey : List Char → List Char → Bool
  | _, [] => false
  | [], _ :: _ => true
  | a :: as, b :: bs =>
    if a < b then true else if b < a then false else ltKey as bs

/-- Modelled from the spec: a FAR reader (`far.h` / `sttable.h` are not
among the sources).  The archive is the ordered list of `(key, fst)`
entries the reader visits; `pos` is the current position.  `Find(key)`
returns true iff the key is present and then leaves the reader
positioned at it; `Next` advances; iteration visits keys in order. -/
structure FarReaderModel (F : Type) where
  entries : List (List Char × F)
  pos : Nat

/-- Modelled from the spec: `FarReader::Done()`. -/
def FarReaderModel.isDone (r : FarReaderModel F) : Bool :=
  r.entries.length ≤ r.pos

/-- Modelled from the spec: `FarReader::GetKey()`. -/
def FarReaderModel.getKey [Inhabited F] (r : FarReaderModel F) :
    List Char :=
  (r.entries.getD r.pos ([], default)).1

/-- Modelled from the spec: `FarReader::GetFst()`. -/
def FarReaderModel.getFst [Inhabited F] (r : FarReaderModel F) : F :=
  (r.entries.getD r.pos ([], default)).2

/-- Modelled from the spec: `FarReader::Next()`. -/
def FarReaderModel.next (r : FarReaderModel F) : FarReaderModel F :=
  ⟨r.entries, r.pos + 1⟩

/-- The position of the first entry carrying `k`. -/
def findKeyIdx (k : List Char) : List (List Char × F) → Nat → Option Nat
  | [], _ => none
  | e :: rest, i => if e.1 = k then some i else findKeyIdx k rest (i + 1)

/-- Modelled from the spec: `FarReader::Find(key)` — true iff the key
was added, positioning the reader at it. -/
def FarReaderModel.find (r : FarReaderModel F) (k : List Char) :
    Bool × FarReaderModel F :=
  match findKeyIdx k r.entries 0 with
  | some i => (true, ⟨r.entries, i⟩)
  | none => (false, r)

/-- The final loop of `FarExtract` (extract.h): with no keys specified,
every FST is extracted in visiting order. -/
def farScanAll [Inhabited F] :
    Nat → FarReaderModel F → List (List Char × F)
  | 0, _ => []
  | fuel + 1, r =>
    if r.isDone then []
    else (r.getKey, r.getFst) :: farScanAll fuel r.next

/-- The range loop of `FarExtract` (extract.h): starting at the current
position, write each FST until the reader is done or `end_key <
GetKey()`. -/
def farRangeScan [Inhabited F] (endKey : List Char) :
    Nat → FarReaderModel F → List (List Char × F)
  | 0, _ => []
  | fuel + 1, r =>
    if r.isDone then []
    else if ltKey endKey r.getKey then []
    else (r.getKey, r.getFst) :: farRangeScan endKey fuel r.next

/-- The key-specification loop of `FarExtract` (extract.h).  Each key
spec is split on the range delimiter: one piece means an exact `Find`
(an absent key is an error aborting the extraction), two pieces a range
(empty begin or end key, or an absent begin key, is an error aborting
the extraction), anything else an illegal specification.  Returns the
`(key, fst)` pairs written, in order. -/
def farExtractKeys [Inhabited F] (rangeDelim : List Char) :
    List (List Char) → FarReaderModel F → List (List Char × F)
  | [], _ => []
  | key :: rest, r =>
    match splitString key rangeDelim false with
    | [k] =>
      match r.find k with
      | (false, _) => []
      | (true, r1) => (k, r1.getFst) :: farExtractKeys rangeDelim rest r1
    | [bk, ek] =>
      if bk = [] ∨ ek = [] then []
      else
        match r.find bk with
        | (false, _) => []
        | (true, r1) =>
          farRangeScan ek (r1.entries.length + 1) r1
            ++ farExtractKeys rangeDelim rest r1
    | _ => []

/-- `FarExtract` (extract.h), abstracted over the reader model: the
sequence of FSTs written out, keyed.  Output naming
(`generate_sources`, affixes) is not modelled. -/
def farExtract [Inhabited F] (r : FarReaderModel F)
    (keys keySep rangeDelim : List Char) : List (List Char × F) :=
  if keys ≠ [] then farExtractKeys rangeDelim (splitString keys keySep true) r
  else farScanAll (r.entries.length + 1) r

theorem splitStringAux_no_delim (delim : List Char) (omitEmpty : Bool) :
    ∀ (line cur : List Char), (∀ ch ∈ line, ch ∉ delim) →
      splitStringAux delim omitEmpty cur line
        = if omitEmpty && (cur ++ line).isEmpty then [] else [cur ++ line]
  | [], cur => by
    intro _
    simp [splitStringAux]
  | ch :: rest, cur => by
    intro h
    have hch : ch ∉ delim := h ch (by simp)
    rw [splitStringAux, if_neg hch,
      splitStringAux_no_delim delim omitEmpty rest (cur ++ [ch])
        (fun c hc => h c (by simp [hc]))]
    simp

theorem splitStringAux_delim_split (delim : List Char) (d : Char)
    (hd : d ∈ delim) :
    ∀ (xs ys cur : List Char), (∀ ch ∈ xs, ch ∉ delim) →
      splitStringAux delim false cur (xs ++ d :: ys)
        = (cur ++ xs) :: splitStringAux delim false [] ys
  | [], ys, cur => by
    intro _
    rw [List.nil_append, splitStringAux, if_pos hd]
    simp
  | x :: xs, ys, cur => by
    intro h
    have hx : x ∉ delim := h x (by simp)
    rw [List.cons_append, splitStringAux, if_neg hx,
      splitStringAux_delim_split delim d hd xs ys (cur ++ [x])
        (fun c hc => h c (by simp [hc]))]
    simp

theorem splitString_single (line delim : List Char) (omitEmpty : Bool)
    (hne : line ≠ []) (h : ∀ ch ∈ line, ch ∉ delim) :
    splitString line delim omitEmpty = [line] := by
  rw [splitString, splitStringAux_no_delim delim omitEmpty line [] h]
  simp [hne]

theorem splitString_pair (d : Char) (xs ys : List Char) (hxs : d ∉ xs)
    (hys : d ∉ ys) :
    splitString (xs ++ d :: ys) [d] false = [xs, ys] := by
  rw [splitString,
    splitStringAux_delim_split [d] d (by simp) xs ys []
      (fun ch hch => by
        simp only [List.mem_singleton]
        rintro rfl
        exact hxs hch),
    splitStringAux_no_delim [d] false ys []
      (fun ch hch => by
        simp only [List.mem_singleton]
        rintro rfl
        exact hys hch)]
  simp

theorem ltKey_nil_right : ∀ (a : List Char), ltKey a [] = false
  | [] => rfl
  | _ :: _ => rfl

theorem ltKey_irrefl : ∀ (l : List Char), ltKey l l = false
  | [] => rfl
  | a :: as => by simp [ltKey, lt_irrefl, ltKey_irrefl as]

theorem ltKey_asymm : ∀ (a b : List Char), ltKey a b = true →
    ltKey b a = false
  | a, [], h => by rw [ltKey_nil_right] at h; exact absurd h (by simp)
  | [], _ :: _, _ => by rw [ltKey_nil_right]
  | a :: as, b :: bs, h => by
    simp only [ltKey] at h ⊢
    by_cases hab : a < b
    · have h1 : ¬b < a := lt_asymm hab
      simp [h1, hab]
    · by_cases hba : b < a
      · simp [hab, hba] at h
      · simp only [if_neg hab, if_neg hba] at h ⊢
        exact ltKey_asymm as bs h

theorem ltKey_ne (a b : List Char) (h : ltKey a b = true) : a ≠ b := by
  rintro rfl
  rw [ltKey_irrefl] at h
  exact absurd h (by simp)

theorem ltKey_ne_nil (a b : List Char) (h : ltKey a b = true) :
    b ≠ [] := by
  rintro rfl
  rw [ltKey_nil_right] at h
  exact absurd h (by simp)

theorem farRangeScan_yield [Inhabited F] (endKey : List Char) (fuel : Nat)
    (r : FarReaderModel F) (h1 : r.isDone = false)
    (h2 : ltKey endKey r.getKey = false) :
    farRangeScan endKey (fuel + 1) r
      = (r.getKey, r.getFst) :: farRangeScan endKey fuel r.next := by
  simp [farRangeScan, h1, h2]

theorem farRangeScan_break [Inhabited F] (endKey : List Char) (fuel : Nat)
    (r : FarReaderModel F) (h1 : r.isDone = false)
    (h2 : ltKey endKey r.getKey = true) :
    farRangeScan endKey (fuel + 1) r = [] := by
  simp [farRangeScan, h1, h2]

/-- C7: For a FAR whose reader visits keys `k1 < k2 < k3 < k4` in
lexicographic order, `FarExtract` with the single range specification
`k2-k3` (key separator ",", range delimiter "-", neither occurring in
the keys) writes out exactly the FSTs keyed `k2` and `k3`, in that
order; a range whose begin key `b` is absent from the archive produces
an error and extracts nothing for that range. -/
theorem far_extract_range {F : Type} [Inhabited F]
    (k1 k2 k3 k4 b ee : List Char) (f1 f2 f3 f4 : F)
    (h12 : ltKey k1 k2 = true) (h23 : ltKey k2 k3 = true)
    (h34 : ltKey k3 k4 = true)
    (hk2d : '-' ∉ k2) (hk2c : ',' ∉ k2)
    (hk3d : '-' ∉ k3) (hk3c : ',' ∉ k3)
    (hbne : b ≠ []) (hene : ee ≠ []) (hbd : '-' ∉ b) (hbc : ',' ∉ b)
    (hed : '-' ∉ ee) (hec : ',' ∉ ee)
    (hb1 : b ≠ k1) (hb2 : b ≠ k2) (hb3 : b ≠ k3) (hb4 : b ≠ k4) :
    farExtract
        (⟨[(k1, f1), (k2, f2), (k3, f3), (k4, f4)], 0⟩ : FarReaderModel F)
        (k2 ++ '-' :: k3) [','] ['-'] = [(k2, f2), (k3, f3)]
    ∧ farExtract
        (⟨[(k1, f1), (k2, f2), (k3, f3), (k4, f4)], 0⟩ : FarReaderModel F)
        (b ++ '-' :: ee) [','] ['-'] = [] := by
  have hk2ne : k2 ≠ [] := ltKey_ne_nil k1 k2 h12
  have hk3ne : k3 ≠ [] := ltKey_ne_nil k2 k3 h23
  have h12ne : k1 ≠ k2 := ltKey_ne k1 k2 h12
  have hn32 : ltKey k3 k2 = false := ltKey_asymm k2 k3 h23
  have hn33 : ltKey k3 k3 = false := ltKey_irrefl k3
  constructor
  · -- the range k2-k3
    have hsplit1 : splitString (k2 ++ '-' :: k3) [','] true
        = [k2 ++ '-' :: k3] := by
      refine splitString_single _ _ _ (by simp) ?_
      intro ch hch
      simp only [List.mem_append, List.mem_cons] at hch
      simp only [List.mem_singleton]
      rintro rfl
      rcases hch with h | h | h
      · exact hk2c h
      · exact absurd h (by decide)
      · exact hk3c h
    have hsplit2 : splitString (k2 ++ '-' :: k3) ['-'] false = [k2, k3] :=
      splitString_pair '-' k2 k3 hk2d hk3d
    have hfindidx : findKeyIdx k2
        [(k1, f1), (k2, f2), (k3, f3), (k4, f4)] 0 = some 1 := by
      simp [findKeyIdx, h12ne]
    have hfind : FarReaderModel.find
        (⟨[(k1, f1), (k2, f2), (k3, f3), (k4, f4)], 0⟩ : FarReaderModel F)
        k2 = (true, ⟨[(k1, f1), (k2, f2), (k3, f3), (k4, f4)], 1⟩) := by
      simp [FarReaderModel.find, hfindidx]
    have hscan : farRangeScan k3
        (([(k1, f1), (k2, f2), (k3, f3), (k4, f4)] :
            List (List Char × F)).length + 1)
        ⟨[(k1, f1), (k2, f2), (k3, f3), (k4, f4)], 1⟩
        = [(k2, f2), (k3, f3)] := by
      rw [farRangeScan_yield k3 _ _
          (by simp [FarReaderModel.isDone])
          (by simp [FarReaderModel.getKey, hn32])]
      rw [show (([(k1, f1), (k2, f2), (k3, f3), (k4, f4)] :
          List (List Char × F)).length)
          = ([(k2, f2), (k3, f3), (k4, f4)] :
              List (List Char × F)).length + 1 by simp]
      rw [farRangeScan_yield k3 _ _
          (by simp [FarReaderModel.isDone, FarReaderModel.next])
          (by simp [FarReaderModel.getKey, FarReaderModel.next, hn33])]
      rw [show (([(k2, f2), (k3, f3), (k4, f4)] :
          List (List Char × F)).length)
          = ([(k3, f3), (k4, f4)] : List (List Char × F)).length + 1
          by simp]
      rw [farRangeScan_break k3 _ _
          (by simp [FarReaderModel.isDone, FarReaderModel.next])
          (by simp [FarReaderModel.getKey, FarReaderModel.next, h34])]
      simp [FarReaderModel.getKey, FarReaderModel.getFst,
        FarReaderModel.next]
    rw [farExtract, if_pos (by simp : (k2 ++ '-' :: k3) ≠ []), hsplit1]
    simp only [farExtractKeys, hsplit2]
    rw [if_neg (by simp [hk2ne, hk3ne])]
    rw [hfind]
    simp only [farExtractKeys, hscan]
    simp
  · -- a range whose begin key is absent
    have hsplit1 : splitString (b ++ '-' :: ee) [','] true
        = [b ++ '-' :: ee] := by
      refine splitString_single _ _ _ (by simp) ?_
      intro ch hch
      simp only [List.mem_append, List.mem_cons] at hch
      simp only [List.mem_singleton]
      rintro rfl
      rcases hch with h | h | h
      · exact hbc h
      · exact absurd h (by decide)
      · exact hec h
    have hsplit2 : splitString (b ++ '-' :: ee) ['-'] false = [b, ee] :=
      splitString_pair '-' b ee hbd hed
    have hfindidx : findKeyIdx b
        [(k1, f1), (k2, f2), (k3, f3), (k4, f4)] 0 = none := by
      simp [findKeyIdx, hb1.symm, hb2.symm, hb3.symm, hb4.symm]
    have hfind : FarReaderModel.find
        (⟨[(k1, f1), (k2, f2), (k3, f3), (k4, f4)], 0⟩ : FarReaderModel F)
        b = (false,
          ⟨[(k1, f1), (k2, f2), (k3, f3), (k4, f4)], 0⟩) := by
      simp [FarReaderModel.find, hfindidx]
    rw [farExtract, if_pos (by simp : (b ++ '-' :: ee) ≠ []), hsplit1]
    simp only [farExtractKeys, hsplit2]
    rw [if_neg (by simp [hbne, hene])]
    rw [hfind]

/-- Witness for C7 at a concrete input: archive keys "a" < "b" < "c" <
"d" with FSTs 1..4, range spec "b-c", absent begin key "x". -/
theorem far_extract_range_witness :
    (ltKey ['a'] ['b'] = true ∧ ltKey ['b'] ['c'] = true
      ∧ ltKey ['c'] ['d'] = true
      ∧ '-' ∉ (['b'] : List Char) ∧ ',' ∉ (['b'] : List Char)
      ∧ '-' ∉ (['c'] : List Char) ∧ ',' ∉ (['c'] : List Char)
      ∧ (['x'] : List Char) ≠ [] ∧ (['y'] : List Char) ≠ []
      ∧ '-' ∉ (['x'] : List Char) ∧ ',' ∉ (['x'] : List Char)
      ∧ '-' ∉ (['y'] : List Char) ∧ ',' ∉ (['y'] : List Char)
      ∧ (['x'] : List Char) ≠ ['a'] ∧ (['x'] : List Char) ≠ ['b']
      ∧ (['x'] : List Char) ≠ ['c'] ∧ (['x'] : List Char) ≠ ['d'])
    ∧ (farExtract
          (⟨[(['a'], 1), (['b'], 2), (['c'], 3), (['d'], 4)], 0⟩ :
            FarReaderModel Nat)
          (['b'] ++ '-' :: ['c']) [','] ['-'] = [(['b'], 2), (['c'], 3)]
        ∧ farExtract
            (⟨[(['a'], 1), (['b'], 2), (['c'], 3), (['d'], 4)], 0⟩ :
              FarReaderModel Nat)
            (['x'] ++ '-' :: ['y']) [','] ['-'] = []) :=
  ⟨by decide,
    far_extract_range ['a'] ['b'] ['c'] ['d'] ['x'] ['y'] 1 2 3 4
      (by decide) (by decide) (by decide) (by decide) (by decide)
      (by decide) (by decide) (by decide) (by decide) (by decide)
      (by decide) (by decide) (by decide) (by decide) (by decide)
      (by decide) (by decide)⟩

end OpenFst
